import Mathlib

/-!
Verification of the audio chunking / WAV encoding core of VoxScribe-AI.

The definitions below are a shallow embedding of the TypeScript source:
* `encodeWAV`, `writeStringBytes`, the quantization step — from
  `services/geminiService.ts` (`encodeWAV`);
* `handleDownloadAudioEncode` — from the inline WAV writer in
  `App.tsx` (`handleDownloadAudio`);
* `chunkLoop`, `jsSlice`, `durationOf` — from the chunking loop of
  `transcribeLargeAudio`;
* `assembleLoop`, `jsTrim` — from the transcript accumulation
  `fullTranscript += " " + chunkTranscript; return fullTranscript.trim()`;
* `runChunksFrom` — the sequential chunk loop with a fallible remote call
  (`await transcribeAudio`), failure modelled as `Option.none`.

Byte buffers are `List ℕ` (each entry a byte value), samples are `ℚ`
(idealizing IEEE floats by exact rationals; every concrete input used in a
counterexample below is exactly representable as a Float32 and the JS double
arithmetic on it is exact), machine integers are `ℤ`/`ℕ` with explicit
`% 256` / `% 65536` / `% 4294967296` where the DataView setters wrap.
-/

namespace VoxScribe

/-- Bytes of a DataView `setUint16 (..., true)` (little endian, wraps mod 2^16). -/
def u16le (v : ℕ) : List ℕ := [v % 256, v / 256 % 256]

/-- Bytes of a DataView `setUint32 (..., true)` (little endian, wraps mod 2^32). -/
def u32le (v : ℕ) : List ℕ := [v % 256, v / 256 % 256, v / 65536 % 256, v / 16777216 % 256]

/-- `writeString (view, offset, s)` from the source writes `s.charCodeAt i` for
each position; as a byte list this is the char codes of the string. -/
def writeStringBytes (s : String) : List ℕ := s.toList.map Char.toNat

/-- JS `ToIntegerOrInfinity` truncation applied by `DataView.setInt16` to a
non-integral number: truncation toward zero. -/
def jsTrunc (x : ℚ) : ℤ := if 0 ≤ x then ⌊x⌋ else ⌈x⌉

/-- `Math.max (-1, Math.min (1, s))` from the sample-writing loop. -/
def clamp (s : ℚ) : ℚ := max (-1) (min 1 s)

/-- The int16 value written for one sample:
`view.setInt16(offset, s < 0 ? s * 0x8000 : s * 0x7FFF, true)` after clamping. -/
def quantize (s : ℚ) : ℤ :=
  let c := clamp s
  jsTrunc (if c < 0 then c * 0x8000 else c * 0x7FFF)

/-- Bytes of `setInt16 (..., true)`: two's complement, little endian. -/
def i16le (v : ℤ) : List ℕ := u16le ((v % 65536).toNat)

/-- The 44-byte RIFF/WAVE header written by `encodeWAV`. -/
def wavHeader (numSamples rate : ℕ) : List ℕ :=
  writeStringBytes ("RIFF") ++
  u32le (36 + numSamples * 2) ++
  writeStringBytes ("WAVE") ++
  writeStringBytes ("fmt ") ++
  u32le 16 ++
  u16le 1 ++
  u16le 1 ++
  u32le rate ++
  u32le (rate * 2) ++
  u16le 2 ++
  u16le 16 ++
  writeStringBytes ("data") ++
  u32le (numSamples * 2)

/-- `encodeWAV (samples, sampleRate)` from `services/geminiService.ts`:
header followed by the clamped, quantized little-endian int16 samples. -/
def encodeWAV (samples : List ℚ) (rate : ℕ) : List ℕ :=
  wavHeader samples.length rate ++ samples.flatMap (fun s => i16le (quantize s))

/-- The inline WAV writer of `handleDownloadAudio` in `App.tsx`, transcribed
independently of `encodeWAV`: same header layout and sample loop, with the
sample rate hardcoded to `const sampleRate = 24000`. -/
def handleDownloadAudioEncode (float32Samples : List ℚ) : List ℕ :=
  let sampleRate : ℕ := 24000
  writeStringBytes ("RIFF") ++
  u32le (36 + float32Samples.length * 2) ++
  writeStringBytes ("WAVE") ++
  writeStringBytes ("fmt ") ++
  u32le 16 ++
  u16le 1 ++
  u16le 1 ++
  u32le sampleRate ++
  u32le (sampleRate * 2) ++
  u16le 2 ++
  u16le 16 ++
  writeStringBytes ("data") ++
  u32le (float32Samples.length * 2) ++
  float32Samples.flatMap (fun x =>
    i16le (jsTrunc (if clamp x < 0 then clamp x * 0x8000 else clamp x * 0x7FFF)))

/-- The decode used by the playback/download path in `App.tsx`:
`float32Samples[i] = dataInt16[i] / 32768.0`. -/
def decodeSample (v : ℤ) : ℚ := (v : ℚ) / 32768

/-! ### Byte readers (the decode side of the header claims) -/

/-- Read one byte (0 beyond the end). -/
def readU8 (bs : List ℕ) (off : ℕ) : ℕ := bs.getD off 0

/-- Read a little-endian uint16. -/
def readU16le (bs : List ℕ) (off : ℕ) : ℕ :=
  readU8 bs off + 256 * readU8 bs (off + 1)

/-- Read a little-endian uint32. -/
def readU32le (bs : List ℕ) (off : ℕ) : ℕ :=
  readU8 bs off + 256 * readU8 bs (off + 1) + 65536 * readU8 bs (off + 2) +
    16777216 * readU8 bs (off + 3)

/-- Read a little-endian two's-complement int16. -/
def readI16le (bs : List ℕ) (off : ℕ) : ℤ :=
  let v := readU16le bs off
  if v < 32768 then (v : ℤ) else (v : ℤ) - 65536

/-- Read `n` consecutive bytes. -/
def readBytes (bs : List ℕ) (off n : ℕ) : List ℕ :=
  (List.range n).map (fun i => readU8 bs (off + i))

/-- `const SAMPLE_RATE = 16000` from `constants.ts`. -/
def SAMPLE_RATE : ℕ := 16000

/-- `const CHUNK_DURATION_SEC = 300` from `transcribeLargeAudio`. -/
def CHUNK_DURATION_SEC : ℚ := 300

/-- `audioBuffer.duration`: number of frames divided by the sample rate. -/
def durationOf (numSamples : ℕ) : ℚ := (numSamples : ℚ) / (SAMPLE_RATE : ℚ)

/-- The chunking loop
`for (startTime = 0; startTime < totalDuration; startTime += CHUNK_DURATION_SEC)`
emitting the time range `[startTime, min (startTime + CHUNK_DURATION_SEC, totalDuration))`
of each chunk. The loop guard is the source's `startTime < totalDuration`;
the hypothesis form `if h : _` is only needed for the termination proof. -/
def chunkLoop (D : ℚ) (start : ℚ) : List (ℚ × ℚ) :=
  if h : start < D then
    (start, min (start + CHUNK_DURATION_SEC) D) :: chunkLoop D (start + CHUNK_DURATION_SEC)
  else []
termination_by (⌈D - start⌉).toNat
decreasing_by
  have h1 : (0 : ℚ) < D - start := by linarith
  have h2 : (1 : ℤ) ≤ ⌈D - start⌉ := Int.ceil_pos.2 h1
  have h3 : ⌈D - (start + CHUNK_DURATION_SEC)⌉ = ⌈D - start⌉ - 300 := by
    have he : D - (start + CHUNK_DURATION_SEC) = (D - start) - ((300 : ℤ) : ℚ) := by
      unfold CHUNK_DURATION_SEC
      push_cast
      ring
    rw [he, Int.ceil_sub_int]
  omega

/-- `pcmData.slice(startSample, endSample)` for in-range nonnegative indices:
the elements in positions `[s, e)`. -/
def jsSlice (pcm : List ℚ) (s e : ℕ) : List ℚ := (pcm.take e).drop s

/-- The sample index range of each chunk:
`startSample = Math.floor(startTime * SAMPLE_RATE)`,
`endSample = Math.floor(endTime * SAMPLE_RATE)` (the times are nonnegative, so
`Int.toNat` is exact). -/
def chunkSampleRanges (D : ℚ) : List (ℕ × ℕ) :=
  (chunkLoop D 0).map
    (fun p => ((⌊p.1 * (SAMPLE_RATE : ℚ)⌋).toNat, (⌊p.2 * (SAMPLE_RATE : ℚ)⌋).toNat))

/-- A decoded `AudioBuffer`: its per-channel sample data (in a real
`AudioBuffer` all channels have the same frame count, and `duration` is that
frame count over the sample rate). -/
structure DecodedAudio where
  channels : List (List ℚ)

/-- `audioBuffer.getChannelData(i)`. -/
def getChannelData (b : DecodedAudio) (i : ℕ) : List ℚ := b.channels.getD i []

/-- The deterministic part of `transcribeLargeAudio`: take the first channel
(`audioBuffer.getChannelData(0)`), chunk it by time, slice the PCM data and
encode each chunk as WAV at 16 kHz. -/
def transcribePipelineWavs (b : DecodedAudio) : List (List ℕ) :=
  let pcmData := getChannelData b 0
  (chunkSampleRanges (durationOf pcmData.length)).map
    (fun r => encodeWAV (jsSlice pcmData r.1 r.2) SAMPLE_RATE)

/-- The whitespace test of JS `String.prototype.trim` restricted to the ASCII
characters that can occur here. -/
def isJsSpace (c : Char) : Bool := c = ' ' || c = '\t' || c = '\n' || c = '\r'

/-- JS `s.trim()`: drop whitespace from both ends. -/
def jsTrim (s : List Char) : List Char :=
  (((s.dropWhile isJsSpace).reverse).dropWhile isJsSpace).reverse

/-- The transcript accumulation of `transcribeLargeAudio`:
`fullTranscript = ""`, then `fullTranscript += " " + chunkTranscript` per
chunk, then `fullTranscript.trim()`. -/
def assembleLoop (ts : List (List Char)) : List Char :=
  jsTrim (ts.foldl (fun acc t => acc ++ (' ' :: t)) [])

/-- The claim formula `t_1 + " " + t_2 + ... + " " + t_N`. -/
def spaceJoin : List (List Char) → List Char
  | [] => []
  | [t] => t
  | t :: rest => t ++ (' ' :: spaceJoin rest)

/-- The sequential chunk loop with its fallible remote call: `oracle i` is the
result of `await transcribeAudio` for chunk `i` (`none` = the call throws).
Returns the list of chunk indices submitted, in order, and `some transcript`
on success or `none` when the loop was aborted by a failure. -/
def runChunksFrom (oracle : ℕ → Option (List Char)) (n : ℕ) (i : ℕ) (acc : List Char) :
    List ℕ × Option (List Char) :=
  if h : i < n then
    match oracle i with
    | none => ([i], none)
    | some t =>
      let r := runChunksFrom oracle n (i + 1) (acc ++ (' ' :: t))
      (i :: r.1, r.2)
  else ([], some (jsTrim acc))
termination_by n - i

/-- A remote-call behavior where chunk 0 succeeds and chunk 1 fails. -/
def failAfterFirst : ℕ → Option (List Char) :=
  fun j => if j = 0 then some (['a']) else none

/-! ### Evaluation helpers for the quantization step -/

theorem clamp_of_mem (s : ℚ) (h1 : -1 ≤ s) (h2 : s ≤ 1) : clamp s = s := by
  unfold clamp
  rw [min_eq_right h2, max_eq_right h1]

theorem quantize_nonneg (s : ℚ) (h0 : 0 ≤ s) (h1 : s ≤ 1) :
    quantize s = ⌊s * 32767⌋ := by
  simp only [quantize, clamp_of_mem s (by linarith) h1]
  rw [if_neg (not_lt.2 h0)]
  unfold jsTrunc
  rw [if_pos (by positivity)]

theorem quantize_neg (s : ℚ) (h0 : s < 0) (h1 : -1 ≤ s) :
    quantize s = ⌈s * 32768⌉ := by
  simp only [quantize, clamp_of_mem s h1 (by linarith)]
  rw [if_pos h0]
  unfold jsTrunc
  rw [if_neg (by nlinarith)]

theorem quantize_zero : quantize 0 = 0 := by
  rw [quantize_nonneg 0 le_rfl (by norm_num)]
  norm_num

theorem quantize_half : quantize (1/2) = 16383 := by
  rw [quantize_nonneg (1/2) (by norm_num) (by norm_num), Int.floor_eq_iff]
  norm_num

theorem quantize_neg_one : quantize (-1) = -32768 := by
  rw [quantize_neg (-1) (by norm_num) le_rfl, Int.ceil_eq_iff]
  norm_num

theorem wsb_RIFF : writeStringBytes ("RIFF") = [82, 73, 70, 70] := rfl

theorem wsb_WAVE : writeStringBytes ("WAVE") = [87, 65, 86, 69] := rfl

theorem wsb_fmt : writeStringBytes ("fmt ") = [102, 109, 116, 32] := rfl

theorem wsb_data : writeStringBytes ("data") = [100, 97, 116, 97] := rfl

/-- The WAV buffer as an explicit byte chain (header bytes spelled out). -/
theorem encodeWAV_bytes (samples : List ℚ) (rate : ℕ) :
    encodeWAV samples rate =
    82 :: 73 :: 70 :: 70 ::
    ((36 + samples.length * 2) % 256) :: ((36 + samples.length * 2) / 256 % 256) ::
    ((36 + samples.length * 2) / 65536 % 256) ::
    ((36 + samples.length * 2) / 16777216 % 256) ::
    87 :: 65 :: 86 :: 69 ::
    102 :: 109 :: 116 :: 32 ::
    16 :: 0 :: 0 :: 0 ::
    1 :: 0 :: 1 :: 0 ::
    (rate % 256) :: (rate / 256 % 256) :: (rate / 65536 % 256) :: (rate / 16777216 % 256) ::
    (rate * 2 % 256) :: (rate * 2 / 256 % 256) :: (rate * 2 / 65536 % 256) ::
    (rate * 2 / 16777216 % 256) ::
    2 :: 0 :: 16 :: 0 ::
    100 :: 97 :: 116 :: 97 ::
    (samples.length * 2 % 256) :: (samples.length * 2 / 256 % 256) ::
    (samples.length * 2 / 65536 % 256) :: (samples.length * 2 / 16777216 % 256) ::
    samples.flatMap (fun s => i16le (quantize s)) := by
  simp [encodeWAV, wavHeader, u32le, u16le, wsb_RIFF, wsb_WAVE, wsb_fmt, wsb_data]

/-- Length of the encoded PCM data section: 2 bytes per sample. -/
theorem flatMap_i16le_length (l : List ℚ) :
    (l.flatMap (fun s => i16le (quantize s))).length = l.length * 2 := by
  induction l with
  | nil => rfl
  | cons s rest ih =>
    have h2 : (i16le (quantize s)).length = 2 := rfl
    simp only [List.flatMap_cons, List.length_append, ih, List.length_cons, h2]
    omega

/-- Claim C1: for every sample array and sample rate (within the uint32 header
field ranges), the WAV buffer produced by `encodeWAV` has total byte length
`44 + 2*N` and its header fields match the canonical RIFF/WAVE layout: bytes
0-3 spell RIFF, ChunkSize at offset 4 is `36 + 2*N`, bytes 8-11 spell WAVE,
Subchunk1Size is 16, AudioFormat is 1, NumChannels is 1, SampleRate at offset
24 is the given rate, ByteRate is `rate * 2`, BlockAlign is 2, BitsPerSample
is 16, bytes 36-39 spell data, and Subchunk2Size at offset 40 is `2*N`. -/
theorem wav_header_invariant (samples : List ℚ) (rate : ℕ)
    (hN : 36 + samples.length * 2 < 4294967296) (hr : rate * 2 < 4294967296) :
    (encodeWAV samples rate).length = 44 + samples.length * 2 ∧
    readBytes (encodeWAV samples rate) 0 4 = writeStringBytes ("RIFF") ∧
    readU32le (encodeWAV samples rate) 4 = 36 + samples.length * 2 ∧
    readBytes (encodeWAV samples rate) 8 4 = writeStringBytes ("WAVE") ∧
    readBytes (encodeWAV samples rate) 12 4 = writeStringBytes ("fmt ") ∧
    readU32le (encodeWAV samples rate) 16 = 16 ∧
    readU16le (encodeWAV samples rate) 20 = 1 ∧
    readU16le (encodeWAV samples rate) 22 = 1 ∧
    readU32le (encodeWAV samples rate) 24 = rate ∧
    readU32le (encodeWAV samples rate) 28 = rate * 2 ∧
    readU16le (encodeWAV samples rate) 32 = 2 ∧
    readU16le (encodeWAV samples rate) 34 = 16 ∧
    readBytes (encodeWAV samples rate) 36 4 = writeStringBytes ("data") ∧
    readU32le (encodeWAV samples rate) 40 = samples.length * 2 := by
  have hb := encodeWAV_bytes samples rate
  have hchunk : readU32le (encodeWAV samples rate) 4 =
      (36 + samples.length * 2) % 256 + 256 * ((36 + samples.length * 2) / 256 % 256) +
      65536 * ((36 + samples.length * 2) / 65536 % 256) +
      16777216 * ((36 + samples.length * 2) / 16777216 % 256) := by rw [hb]; rfl
  have hrate : readU32le (encodeWAV samples rate) 24 =
      rate % 256 + 256 * (rate / 256 % 256) +
      65536 * (rate / 65536 % 256) + 16777216 * (rate / 16777216 % 256) := by rw [hb]; rfl
  have hbyterate : readU32le (encodeWAV samples rate) 28 =
      rate * 2 % 256 + 256 * (rate * 2 / 256 % 256) +
      65536 * (rate * 2 / 65536 % 256) + 16777216 * (rate * 2 / 16777216 % 256) := by
    rw [hb]; rfl
  have hdata : readU32le (encodeWAV samples rate) 40 =
      samples.length * 2 % 256 + 256 * (samples.length * 2 / 256 % 256) +
      65536 * (samples.length * 2 / 65536 % 256) +
      16777216 * (samples.length * 2 / 16777216 % 256) := by rw [hb]; rfl
  have hlen : (encodeWAV samples rate).length = 44 + samples.length * 2 := by
    unfold encodeWAV
    rw [List.length_append, flatMap_i16le_length]
    have h44 : (wavHeader samples.length rate).length = 44 := rfl
    omega
  refine ⟨hlen, by rw [hb]; rfl, by omega, by rw [hb]; rfl, by rw [hb]; rfl,
    by rw [hb]; rfl, by rw [hb]; rfl, by rw [hb]; rfl, by omega, by omega,
    by rw [hb]; rfl, by rw [hb]; rfl, by rw [hb]; rfl, by omega⟩

/-- Witness for `wav_header_invariant` at the empty sample array and rate 16000. -/
theorem wav_header_invariant_witness :
    (36 + ([] : List ℚ).length * 2 < 4294967296) ∧ (16000 * 2 < 4294967296) ∧
    ((encodeWAV ([] : List ℚ) 16000).length = 44 + ([] : List ℚ).length * 2 ∧
     readBytes (encodeWAV ([] : List ℚ) 16000) 0 4 = writeStringBytes ("RIFF") ∧
     readU32le (encodeWAV ([] : List ℚ) 16000) 4 = 36 + ([] : List ℚ).length * 2 ∧
     readBytes (encodeWAV ([] : List ℚ) 16000) 8 4 = writeStringBytes ("WAVE") ∧
     readBytes (encodeWAV ([] : List ℚ) 16000) 12 4 = writeStringBytes ("fmt ") ∧
     readU32le (encodeWAV ([] : List ℚ) 16000) 16 = 16 ∧
     readU16le (encodeWAV ([] : List ℚ) 16000) 20 = 1 ∧
     readU16le (encodeWAV ([] : List ℚ) 16000) 22 = 1 ∧
     readU32le (encodeWAV ([] : List ℚ) 16000) 24 = 16000 ∧
     readU32le (encodeWAV ([] : List ℚ) 16000) 28 = 16000 * 2 ∧
     readU16le (encodeWAV ([] : List ℚ) 16000) 32 = 2 ∧
     readU16le (encodeWAV ([] : List ℚ) 16000) 34 = 16 ∧
     readBytes (encodeWAV ([] : List ℚ) 16000) 36 4 = writeStringBytes ("data") ∧
     readU32le (encodeWAV ([] : List ℚ) 16000) 40 = ([] : List ℚ).length * 2) :=
  ⟨by decide, by decide, wav_header_invariant [] 16000 (by decide) (by decide)⟩

/-- Claim C9: encoding `[0.0, 0.5, -1.0]` at 16000 Hz gives a 50-byte buffer
whose second data sample is the int16 16383 or 16384 (the implementation
produces 16383) and whose third data sample is exactly -32768. -/
theorem encode_three_samples :
    (encodeWAV [0, 1/2, -1] 16000).length = 50 ∧
    (readI16le (encodeWAV [0, 1/2, -1] 16000) 46 = 16383 ∨
      readI16le (encodeWAV [0, 1/2, -1] 16000) 46 = 16384) ∧
    readI16le (encodeWAV [0, 1/2, -1] 16000) 48 = -32768 := by
  have h : encodeWAV [0, 1/2, -1] 16000 =
      wavHeader 3 16000 ++ (i16le 0 ++ (i16le 16383 ++ (i16le (-32768) ++ []))) := by
    simp only [encodeWAV, List.flatMap_cons, List.flatMap_nil, quantize_zero,
      quantize_half, quantize_neg_one, List.length_cons, List.length_nil]
  rw [h]
  exact ⟨by decide, Or.inl (by decide), by decide⟩

/-- Counterexample to claim C2: at sample value `0.5` the int16 written into
the data section is 16383 (JS `setInt16` truncates toward zero), not
`round (0.5 * 32767) = 16384` as the claim's rounding rule requires. -/
theorem quantize_round_mismatch :
    readI16le (encodeWAV [(1/2 : ℚ)] 16000) 44 ≠ round ((1/2 : ℚ) * 32767) := by
  have h : encodeWAV [(1/2 : ℚ)] 16000 = wavHeader 1 16000 ++ (i16le 16383 ++ []) := by
    simp only [encodeWAV, List.flatMap_cons, List.flatMap_nil, quantize_half,
      List.length_cons, List.length_nil]
  have hr : round ((1/2 : ℚ) * 32767) = 16384 := by
    rw [round_eq, Int.floor_eq_iff]
    norm_num
  rw [h, hr]
  decide

/-- Counterexample to claim C10: the two WAV writers do not agree for every
sample rate — the `App.tsx` writer hardcodes 24000 Hz, so at rate 16000 (and
the empty sample array) the buffers differ in the SampleRate field. -/
theorem encoders_differ_at_16000 :
    handleDownloadAudioEncode [] ≠ encodeWAV [] 16000 := by decide

/-- Claim C10 (amended): the inline WAV writer of `handleDownloadAudio` agrees
byte-for-byte with `encodeWAV` at the sample rate 24000 it hardcodes, for
every sample array. -/
theorem download_encoder_refines (samples : List ℚ) :
    handleDownloadAudioEncode samples = encodeWAV samples 24000 := rfl

/-! ### Reading the PCM data section back -/

/-- The quantized value always fits in a signed 16-bit integer. -/
theorem quantize_bounds (s : ℚ) : -32768 ≤ quantize s ∧ quantize s < 32768 := by
  have hc1 : -1 ≤ clamp s := le_max_left _ _
  have hc2 : clamp s ≤ 1 := max_le (by norm_num) (min_le_left _ _)
  simp only [quantize, jsTrunc]
  by_cases hneg : clamp s < 0
  · rw [if_pos hneg]
    have hx : clamp s * 32768 < 0 := by nlinarith
    rw [if_neg (not_le.2 hx)]
    constructor
    · have hge : (-32768 : ℚ) ≤ clamp s * 32768 := by nlinarith
      have := Int.ceil_le_ceil hge
      simpa using this
    · have hle : ⌈clamp s * 32768⌉ ≤ 0 := Int.ceil_le.2 (by exact_mod_cast hx.le)
      omega
  · push_neg at hneg
    rw [if_neg (not_lt.2 hneg)]
    have hx : (0 : ℚ) ≤ clamp s * 32767 := by positivity
    rw [if_pos hx]
    constructor
    · have := Int.floor_nonneg.2 hx
      omega
    · have hle : clamp s * 32767 ≤ 32767 := by nlinarith
      have := Int.floor_le_floor hle
      have h32 : ⌊(32767 : ℚ)⌋ = 32767 := by norm_num
      omega

theorem readU8_data (samples : List ℚ) (rate : ℕ) (j : ℕ) :
    readU8 (encodeWAV samples rate) (44 + j) =
    readU8 (samples.flatMap (fun s => i16le (quantize s))) j := by
  have h44 : (wavHeader samples.length rate).length = 44 := rfl
  unfold encodeWAV readU8
  rw [List.getD_eq_getElem?_getD, List.getElem?_append_right (by rw [h44]; omega), h44]
  have hj : 44 + j - 44 = j := by omega
  rw [hj, ← List.getD_eq_getElem?_getD]

theorem readU16le_data (samples : List ℚ) (rate : ℕ) (j : ℕ) :
    readU16le (encodeWAV samples rate) (44 + j) =
    readU16le (samples.flatMap (fun s => i16le (quantize s))) j := by
  unfold readU16le
  rw [readU8_data, show 44 + j + 1 = 44 + (j + 1) by omega, readU8_data]

/-- The two data-section bytes of sample `i`, recombined as a uint16. -/
theorem data_readU16 (samples : List ℚ) : ∀ (i : ℕ), i < samples.length →
    readU16le (samples.flatMap (fun s => i16le (quantize s))) (2 * i) =
    ((quantize (samples.getD i 0)) % 65536).toNat := by
  induction samples with
  | nil => intro i h; simp at h
  | cons s rest ih =>
    intro i h
    cases i with
    | zero =>
      rw [List.flatMap_cons]
      simp only [i16le, u16le, List.cons_append, List.nil_append, readU16le, readU8,
        Nat.mul_zero, List.getD_cons_zero, Nat.zero_add, List.getD_cons_succ,
        List.getD_cons_zero]
      omega
    | succ n =>
      rw [List.flatMap_cons]
      simp only [i16le, u16le, List.cons_append, List.nil_append]
      have hidx : 2 * (n + 1) = 2 * n + 1 + 1 := by ring
      rw [hidx]
      simp only [readU16le, readU8, List.getD_cons_succ]
      have hrec := ih n (by simpa using Nat.lt_of_succ_lt_succ h)
      simp only [readU16le, readU8, i16le, u16le] at hrec
      exact hrec

/-- Reading back sample `i` from the encoded buffer yields its quantized
int16 value. -/
theorem readI16le_data (samples : List ℚ) (rate : ℕ) (i : ℕ) (h : i < samples.length) :
    readI16le (encodeWAV samples rate) (44 + 2 * i) = quantize (samples.getD i 0) := by
  have hq := quantize_bounds (samples.getD i 0)
  simp only [readI16le]
  rw [readU16le_data, data_readU16 samples i h]
  split <;> omega

/-- Claim C2 (amended): the int16 written into the WAV data section for sample
`s` is the truncation toward zero (not the rounding) of the scaled clamped
value: `⌈clamp s * 32768⌉` when `clamp s < 0` (truncation of a negative
number is its ceiling) and `⌊clamp s * 32767⌋` otherwise. -/
theorem pcm_data_truncation (samples : List ℚ) (rate : ℕ) (i : ℕ)
    (h : i < samples.length) :
    readI16le (encodeWAV samples rate) (44 + 2 * i) =
      if clamp (samples.getD i 0) < 0 then ⌈clamp (samples.getD i 0) * 32768⌉
      else ⌊clamp (samples.getD i 0) * 32767⌋ := by
  rw [readI16le_data samples rate i h]
  simp only [quantize, jsTrunc]
  by_cases hneg : clamp (samples.getD i 0) < 0
  · rw [if_pos hneg, if_pos hneg, if_neg]
    nlinarith
  · push_neg at hneg
    rw [if_neg (not_lt.2 hneg), if_neg (not_lt.2 hneg), if_pos (by positivity)]

/-- Witness for `pcm_data_truncation`: the single-sample buffer `[0.5]`. -/
theorem pcm_data_truncation_witness :
    (0 < ([(1/2 : ℚ)]).length) ∧
    readI16le (encodeWAV [(1/2 : ℚ)] 16000) (44 + 2 * 0) =
      (if clamp (([(1/2 : ℚ)]).getD 0 0) < 0 then ⌈clamp (([(1/2 : ℚ)]).getD 0 0) * 32768⌉
       else ⌊clamp (([(1/2 : ℚ)]).getD 0 0) * 32767⌋) :=
  ⟨by decide, pcm_data_truncation [(1/2 : ℚ)] 16000 0 (by decide)⟩

/-! ### Round trip: encode then decode by `int16 / 32768` -/

/-- Counterexample to claim C4: the Float32-representable sample
`s = 16777215 / 16777216 = 1 - 2^-24` is within `[-1, 1]` (so clamping does
not change it), yet decoding its encoded int16 back via division by 32768
misses it by `1023 / 16777216 > 1 / 32768`: truncation toward zero plus the
32767-vs-32768 scale mismatch exceeds one quantization step. -/
theorem roundtrip_one_step_mismatch :
    |(16777215/16777216 : ℚ)| ≤ 1 ∧
    1/32768 < |(16777215/16777216 : ℚ) - decodeSample (quantize (16777215/16777216))| := by
  have hq : quantize (16777215/16777216 : ℚ) = 32766 := by
    rw [quantize_nonneg _ (by norm_num) (by norm_num), Int.floor_eq_iff]
    norm_num
  rw [hq]
  unfold decodeSample
  constructor
  · rw [abs_le]; constructor <;> norm_num
  · rw [abs_of_pos (by norm_num)]; norm_num

/-- Claim C4 (amended): for every sample with `|s| ≤ 1` (clamping inactive),
encoding then decoding by `int16 / 32768` reproduces the sample within
strictly less than two quantization steps (`2 / 32768` absolute error);
the one-step bound of the original claim fails (see the counterexample). -/
theorem roundtrip_two_step_bound (s : ℚ) (hs : |s| ≤ 1) :
    |s - decodeSample (quantize s)| < 2 / 32768 := by
  rw [abs_le] at hs
  obtain ⟨hs1, hs2⟩ := hs
  by_cases hneg : s < 0
  · rw [quantize_neg s hneg hs1]
    unfold decodeSample
    have h1 : (⌈s * 32768⌉ : ℚ) < s * 32768 + 1 := Int.ceil_lt_add_one _
    have h2 : s * 32768 ≤ (⌈s * 32768⌉ : ℚ) := Int.le_ceil _
    rw [abs_lt]
    constructor <;> linarith
  · push_neg at hneg
    rw [quantize_nonneg s hneg hs2]
    unfold decodeSample
    have h1 : (⌊s * 32767⌋ : ℚ) ≤ s * 32767 := Int.floor_le _
    have h2 : s * 32767 - 1 < (⌊s * 32767⌋ : ℚ) := Int.sub_one_lt_floor _
    rw [abs_lt]
    constructor <;> linarith

/-- Witness for `roundtrip_two_step_bound` at `s = 1/2`. -/
theorem roundtrip_two_step_bound_witness :
    |(1/2 : ℚ)| ≤ 1 ∧ |(1/2 : ℚ) - decodeSample (quantize (1/2))| < 2 / 32768 :=
  ⟨by rw [abs_le]; constructor <;> norm_num,
   roundtrip_two_step_bound (1/2) (by rw [abs_le]; constructor <;> norm_num)⟩

/-! ### The chunking loop of `transcribeLargeAudio` -/

theorem chunkLoop_go (D start : ℚ) (h : start < D) :
    chunkLoop D start =
      (start, min (start + CHUNK_DURATION_SEC) D) :: chunkLoop D (start + CHUNK_DURATION_SEC) := by
  rw [chunkLoop, dif_pos h]

theorem chunkLoop_stop (D start : ℚ) (h : ¬ start < D) : chunkLoop D start = [] := by
  rw [chunkLoop, dif_neg h]

theorem chunkLoop_length_aux (D : ℚ) :
    ∀ (m : ℕ) (start : ℚ), (⌈D - start⌉).toNat ≤ m →
      (chunkLoop D start).length = (⌈(D - start) / CHUNK_DURATION_SEC⌉).toNat := by
  have hstop : ∀ start : ℚ, ¬ start < D →
      (chunkLoop D start).length = (⌈(D - start) / CHUNK_DURATION_SEC⌉).toNat := by
    intro start h3
    rw [chunkLoop_stop D start h3, List.length_nil]
    have h2 : D - start ≤ 0 := by
      push_neg at h3
      linarith
    have h4 : (D - start) / CHUNK_DURATION_SEC ≤ 0 :=
      div_nonpos_of_nonpos_of_nonneg h2 (by unfold CHUNK_DURATION_SEC; norm_num)
    have h5 : ⌈(D - start) / CHUNK_DURATION_SEC⌉ ≤ 0 := Int.ceil_le.2 (by exact_mod_cast h4)
    omega
  intro m
  induction m with
  | zero =>
    intro start hle
    have h1 : ⌈D - start⌉ ≤ 0 := by omega
    have h2 : D - start ≤ 0 := by exact_mod_cast Int.ceil_le.1 h1
    exact hstop start (by linarith)
  | succ m ih =>
    intro start hle
    by_cases h : start < D
    · rw [chunkLoop_go D start h, List.length_cons]
      have hstep : ⌈D - (start + CHUNK_DURATION_SEC)⌉ = ⌈D - start⌉ - 300 := by
        have he : D - (start + CHUNK_DURATION_SEC) = (D - start) - ((300 : ℤ) : ℚ) := by
          unfold CHUNK_DURATION_SEC
          push_cast
          ring
        rw [he, Int.ceil_sub_int]
      have hpos : (1 : ℤ) ≤ ⌈D - start⌉ := Int.ceil_pos.2 (by linarith)
      rw [ih (start + CHUNK_DURATION_SEC) (by omega)]
      have hdiv : (D - (start + CHUNK_DURATION_SEC)) / CHUNK_DURATION_SEC =
          (D - start) / CHUNK_DURATION_SEC - 1 := by
        unfold CHUNK_DURATION_SEC
        field_simp
        ring
      rw [hdiv, Int.ceil_sub_one]
      have hq : 0 < ⌈(D - start) / CHUNK_DURATION_SEC⌉ :=
        Int.ceil_pos.2 (div_pos (by linarith) (by unfold CHUNK_DURATION_SEC; norm_num))
      omega
    · exact hstop start h

/-- Number of chunks emitted from time `start` onward. -/
theorem chunkLoop_length (D start : ℚ) :
    (chunkLoop D start).length = (⌈(D - start) / CHUNK_DURATION_SEC⌉).toNat :=
  chunkLoop_length_aux D (⌈D - start⌉).toNat start le_rfl

/-- Closed form of the `i`-th emitted chunk. -/
theorem chunkLoop_getD (D : ℚ) :
    ∀ (i : ℕ) (start : ℚ), i < (chunkLoop D start).length →
      (chunkLoop D start).getD i (0, 0) =
      (start + CHUNK_DURATION_SEC * i,
        min (start + CHUNK_DURATION_SEC * i + CHUNK_DURATION_SEC) D) := by
  intro i
  induction i with
  | zero =>
    intro start h
    have hlt : start < D := by
      by_contra hc
      rw [chunkLoop_stop D start hc] at h
      simp at h
    rw [chunkLoop_go D start hlt, List.getD_cons_zero]
    norm_num
  | succ n ih =>
    intro start h
    have hlt : start < D := by
      by_contra hc
      rw [chunkLoop_stop D start hc] at h
      simp at h
    rw [chunkLoop_go D start hlt] at h ⊢
    rw [List.getD_cons_succ]
    rw [List.length_cons] at h
    rw [ih (start + CHUNK_DURATION_SEC) (Nat.lt_of_succ_lt_succ h)]
    have hc : ((n + 1 : ℕ) : ℚ) = (n : ℚ) + 1 := by push_cast; ring
    rw [Prod.mk.injEq]
    constructor
    · rw [hc]; ring
    · congr 1
      rw [hc]; ring

/-- Claim C3: for a buffer of duration `D ≥ 0` and the 300-second max chunk
duration, the chunking loop emits `⌈D / 300⌉` chunks; chunk `i` is the time
range `[300*i, min (300*i + 300, D))`, each chunk is nonempty (so starts are
strictly increasing), consecutive chunks are adjacent (no gaps, no overlaps),
the first chunk starts at 0 and the last ends at `D` (full coverage of
`[0, D)`), a zero-duration buffer yields no chunks, and a buffer with
`0 < D ≤ 300` yields exactly one chunk covering the whole buffer. -/
theorem chunk_coverage (D : ℚ) (hD : 0 ≤ D) :
    ((chunkLoop D 0).length = (⌈D / CHUNK_DURATION_SEC⌉).toNat) ∧
    (∀ i, i < (chunkLoop D 0).length →
      ((chunkLoop D 0).getD i (0, 0)).1 = CHUNK_DURATION_SEC * i ∧
      ((chunkLoop D 0).getD i (0, 0)).2 =
        min (CHUNK_DURATION_SEC * i + CHUNK_DURATION_SEC) D ∧
      ((chunkLoop D 0).getD i (0, 0)).1 < ((chunkLoop D 0).getD i (0, 0)).2) ∧
    (∀ i, i + 1 < (chunkLoop D 0).length →
      ((chunkLoop D 0).getD i (0, 0)).2 = ((chunkLoop D 0).getD (i + 1) (0, 0)).1) ∧
    (0 < (chunkLoop D 0).length →
      ((chunkLoop D 0).getD 0 (0, 0)).1 = 0 ∧
      ((chunkLoop D 0).getD ((chunkLoop D 0).length - 1) (0, 0)).2 = D) ∧
    (D = 0 → chunkLoop D 0 = []) ∧
    (0 < D → D ≤ CHUNK_DURATION_SEC → chunkLoop D 0 = [(0, D)]) := by
  have hC : (0 : ℚ) < CHUNK_DURATION_SEC := by unfold CHUNK_DURATION_SEC; norm_num
  have hlen : (chunkLoop D 0).length = (⌈D / CHUNK_DURATION_SEC⌉).toNat := by
    rw [chunkLoop_length]
    norm_num
  have hget : ∀ i, i < (chunkLoop D 0).length →
      (chunkLoop D 0).getD i (0, 0) =
      (CHUNK_DURATION_SEC * i, min (CHUNK_DURATION_SEC * i + CHUNK_DURATION_SEC) D) := by
    intro i hi
    rw [chunkLoop_getD D i 0 hi]
    norm_num
  have hiD : ∀ i : ℕ, i < (chunkLoop D 0).length → CHUNK_DURATION_SEC * i < D := by
    intro i hi
    rw [hlen] at hi
    have h1 : (i : ℤ) < ⌈D / CHUNK_DURATION_SEC⌉ := by omega
    have h2 : (i : ℚ) < D / CHUNK_DURATION_SEC := by exact_mod_cast Int.lt_ceil.1 h1
    have h3 : (i : ℚ) * CHUNK_DURATION_SEC < D := (lt_div_iff₀ hC).1 h2
    linarith
  refine ⟨hlen, ?_, ?_, ?_, ?_, ?_⟩
  · intro i hi
    rw [hget i hi]
    dsimp only
    exact ⟨rfl, rfl, lt_min (by linarith) (hiD i hi)⟩
  · intro i hi
    have hi1 : i < (chunkLoop D 0).length := by omega
    rw [hget i hi1, hget (i + 1) hi]
    have hD1 : CHUNK_DURATION_SEC * (i + 1 : ℕ) < D := hiD (i + 1) hi
    have hc : ((i + 1 : ℕ) : ℚ) = (i : ℚ) + 1 := by push_cast; ring
    rw [hc] at hD1 ⊢
    rw [min_eq_left (by nlinarith)]
    ring
  · intro hpos
    constructor
    · rw [hget 0 hpos]
      norm_num
    · have hlast : (chunkLoop D 0).length - 1 < (chunkLoop D 0).length := by omega
      rw [hget _ hlast]
      have hlen1 : (1 : ℤ) ≤ ⌈D / CHUNK_DURATION_SEC⌉ := by
        rw [hlen] at hpos
        omega
      have hup : D / CHUNK_DURATION_SEC ≤ (⌈D / CHUNK_DURATION_SEC⌉ : ℚ) := Int.le_ceil _
      have hcast : (((chunkLoop D 0).length - 1 : ℕ) : ℚ) =
          (⌈D / CHUNK_DURATION_SEC⌉ : ℚ) - 1 := by
        rw [hlen]
        have : ((⌈D / CHUNK_DURATION_SEC⌉.toNat - 1 : ℕ) : ℤ) = ⌈D / CHUNK_DURATION_SEC⌉ - 1 := by
          omega
        exact_mod_cast congrArg (fun z : ℤ => (z : ℚ)) this
      rw [hcast]
      have hDle : D ≤ CHUNK_DURATION_SEC * ((⌈D / CHUNK_DURATION_SEC⌉ : ℚ) - 1) +
          CHUNK_DURATION_SEC := by
        have := (div_le_iff₀ hC).1 hup
        nlinarith
      exact min_eq_right hDle
  · intro h0
    apply List.eq_nil_of_length_eq_zero
    rw [hlen, h0]
    norm_num
  · intro h1 h2
    have hone : ⌈D / CHUNK_DURATION_SEC⌉ = 1 := by
      have hub : ⌈D / CHUNK_DURATION_SEC⌉ ≤ 1 :=
        Int.ceil_le.2 (by exact_mod_cast (div_le_one hC).2 h2)
      have hlb : (0 : ℤ) < ⌈D / CHUNK_DURATION_SEC⌉ := Int.ceil_pos.2 (div_pos h1 hC)
      omega
    have hlen1 : (chunkLoop D 0).length = 1 := by
      rw [hlen, hone]
      rfl
    obtain ⟨a, ha⟩ := List.length_eq_one.1 hlen1
    have ha0 : a = (chunkLoop D 0).getD 0 (0, 0) := by
      rw [ha, List.getD_cons_zero]
    rw [hget 0 (by omega)] at ha0
    have hmin : min (CHUNK_DURATION_SEC * ((0 : ℕ) : ℚ) + CHUNK_DURATION_SEC) D = D := by
      apply min_eq_right
      push_cast
      linarith
    rw [ha, ha0, hmin]
    norm_num

/-- Witness for `chunk_coverage` at `D = 700`. -/
theorem chunk_coverage_witness :
    (0 : ℚ) ≤ 700 ∧
    (((chunkLoop 700 0).length = (⌈(700 : ℚ) / CHUNK_DURATION_SEC⌉).toNat) ∧
    (∀ i, i < (chunkLoop 700 0).length →
      ((chunkLoop 700 0).getD i (0, 0)).1 = CHUNK_DURATION_SEC * i ∧
      ((chunkLoop 700 0).getD i (0, 0)).2 =
        min (CHUNK_DURATION_SEC * i + CHUNK_DURATION_SEC) 700 ∧
      ((chunkLoop 700 0).getD i (0, 0)).1 < ((chunkLoop 700 0).getD i (0, 0)).2) ∧
    (∀ i, i + 1 < (chunkLoop 700 0).length →
      ((chunkLoop 700 0).getD i (0, 0)).2 = ((chunkLoop 700 0).getD (i + 1) (0, 0)).1) ∧
    (0 < (chunkLoop 700 0).length →
      ((chunkLoop 700 0).getD 0 (0, 0)).1 = 0 ∧
      ((chunkLoop 700 0).getD ((chunkLoop 700 0).length - 1) (0, 0)).2 = 700) ∧
    ((700 : ℚ) = 0 → chunkLoop 700 0 = []) ∧
    (0 < (700 : ℚ) → (700 : ℚ) ≤ CHUNK_DURATION_SEC → chunkLoop 700 0 = [(0, 700)])) :=
  ⟨by norm_num, chunk_coverage 700 (by norm_num)⟩

/-- Claim C8: a 700-second buffer at 16 kHz (11 200 000 samples) is split into
exactly 3 chunks with time ranges [0,300), [300,600), [600,700) — durations
300, 300 and 100 seconds — whose PCM slices hold 4 800 000, 4 800 000 and
1 600 000 samples respectively. -/
theorem chunks_700s_scenario :
    chunkLoop (durationOf 11200000) 0 = [(0, 300), (300, 600), (600, 700)] ∧
    (chunkSampleRanges (durationOf 11200000)).map
      (fun r => (jsSlice (List.replicate 11200000 (0 : ℚ)) r.1 r.2).length) =
      [4800000, 4800000, 1600000] := by
  have hD : durationOf 11200000 = 700 := by
    unfold durationOf SAMPLE_RATE
    norm_num
  have e0 : (0 : ℚ) + CHUNK_DURATION_SEC = 300 := by unfold CHUNK_DURATION_SEC; norm_num
  have e1 : (300 : ℚ) + CHUNK_DURATION_SEC = 600 := by unfold CHUNK_DURATION_SEC; norm_num
  have e2 : (600 : ℚ) + CHUNK_DURATION_SEC = 900 := by unfold CHUNK_DURATION_SEC; norm_num
  have h1 : chunkLoop (700 : ℚ) 0 = [(0, 300), (300, 600), (600, 700)] := by
    rw [chunkLoop_go 700 0 (by norm_num), e0, min_eq_left (by norm_num)]
    rw [chunkLoop_go 700 300 (by norm_num), e1, min_eq_left (by norm_num)]
    rw [chunkLoop_go 700 600 (by norm_num), e2, min_eq_right (by norm_num)]
    rw [chunkLoop_stop 700 900 (by norm_num)]
  have hr : chunkSampleRanges (durationOf 11200000) =
      [(0, 4800000), (4800000, 9600000), (9600000, 11200000)] := by
    unfold chunkSampleRanges
    rw [hD, h1]
    simp only [List.map_cons, List.map_nil, SAMPLE_RATE]
    norm_num [Int.floor_ofNat]
    decide
  refine ⟨by rw [hD, h1], ?_⟩
  rw [hr]
  simp only [List.map_cons, List.map_nil, jsSlice, List.length_drop, List.length_take,
    List.length_replicate]
  decide

/-- Claim C7: the PCM data fed to chunking and WAV encoding comes only from
channel 0 of the decoded audio — the pipeline output is invariant under any
change to the other channels. -/
theorem first_channel_only (b1 b2 : DecodedAudio)
    (h : getChannelData b1 0 = getChannelData b2 0) :
    transcribePipelineWavs b1 = transcribePipelineWavs b2 := by
  unfold transcribePipelineWavs
  rw [h]

/-- Witness for `first_channel_only`: two buffers that agree on channel 0 and
differ on channel 1. -/
theorem first_channel_only_witness :
    getChannelData ⟨[[0], [1]]⟩ 0 = getChannelData ⟨[[0], [(1 : ℚ)/2]]⟩ 0 ∧
    transcribePipelineWavs ⟨[[0], [1]]⟩ = transcribePipelineWavs ⟨[[0], [(1 : ℚ)/2]]⟩ :=
  ⟨rfl, first_channel_only ⟨[[0], [1]]⟩ ⟨[[0], [(1 : ℚ)/2]]⟩ rfl⟩

/-! ### Transcript assembly -/

theorem foldl_space (ts : List (List Char)) :
    ∀ acc, ts.foldl (fun acc t => acc ++ (' ' :: t)) acc =
      acc ++ ts.flatMap (fun t => ' ' :: t) := by
  induction ts with
  | nil =>
    intro acc
    simp
  | cons t rest ih =>
    intro acc
    rw [List.foldl_cons, ih, List.flatMap_cons]
    simp [List.append_assoc]

theorem flatMap_space_eq (ts : List (List Char)) (h : ts ≠ []) :
    ts.flatMap (fun t => ' ' :: t) = ' ' :: spaceJoin ts := by
  induction ts with
  | nil => exact absurd rfl h
  | cons t rest ih =>
    cases rest with
    | nil => simp [spaceJoin]
    | cons t2 rest2 =>
      rw [List.flatMap_cons, ih (by simp)]
      show (' ' :: t) ++ (' ' :: spaceJoin (t2 :: rest2)) = ' ' :: spaceJoin (t :: t2 :: rest2)
      rw [show spaceJoin (t :: t2 :: rest2) = t ++ (' ' :: spaceJoin (t2 :: rest2)) from rfl]
      simp

theorem jsTrim_cons_space (s : List Char) : jsTrim (' ' :: s) = jsTrim s := by
  unfold jsTrim
  rw [List.dropWhile_cons]
  simp [isJsSpace]

/-- Claim C5: for chunk transcripts `t_1 .. t_N` in chunk order the loop of
`transcribeLargeAudio` returns `trim (t_1 + " " + t_2 + ... + " " + t_N)`:
single-space joining in temporal order with final trim, no reordering,
deduplication or dropping. -/
theorem transcript_assembly_eq (ts : List (List Char)) :
    assembleLoop ts = jsTrim (spaceJoin ts) := by
  unfold assembleLoop
  rw [foldl_space, List.nil_append]
  cases ts with
  | nil => rfl
  | cons t rest => rw [flatMap_space_eq _ (by simp), jsTrim_cons_space]

/-! ### Failure behavior of the sequential chunk loop -/

theorem runChunksFrom_stop (oracle : ℕ → Option (List Char)) (n i : ℕ) (acc : List Char)
    (h : ¬ i < n) : runChunksFrom oracle n i acc = ([], some (jsTrim acc)) := by
  rw [runChunksFrom, dif_neg h]

theorem runChunksFrom_fail (oracle : ℕ → Option (List Char)) (n i : ℕ) (acc : List Char)
    (h : i < n) (hf : oracle i = none) : runChunksFrom oracle n i acc = ([i], none) := by
  rw [runChunksFrom, dif_pos h, hf]

theorem runChunksFrom_ok (oracle : ℕ → Option (List Char)) (n i : ℕ) (acc : List Char)
    (t : List Char) (h : i < n) (ht : oracle i = some t) :
    runChunksFrom oracle n i acc =
      (i :: (runChunksFrom oracle n (i + 1) (acc ++ (' ' :: t))).1,
       (runChunksFrom oracle n (i + 1) (acc ++ (' ' :: t))).2) := by
  rw [runChunksFrom, dif_pos h, ht]

theorem runChunksFrom_fail_aux (oracle : ℕ → Option (List Char)) (n k : ℕ)
    (hk : k < n) (hfail : oracle k = none)
    (hprev : ∀ j, j < k → oracle j ≠ none) :
    ∀ (m i : ℕ) (acc : List Char), i ≤ k → k - i ≤ m →
      runChunksFrom oracle n i acc = (List.range' i (k + 1 - i), none) := by
  have hkcase : ∀ acc, runChunksFrom oracle n k acc = (List.range' k (k + 1 - k), none) := by
    intro acc
    rw [runChunksFrom_fail oracle n k acc hk hfail]
    have hone : k + 1 - k = 1 := by omega
    rw [hone, List.range'_succ]
    rfl
  intro m
  induction m with
  | zero =>
    intro i acc hik hm
    have hik' : i = k := by omega
    subst hik'
    exact hkcase acc
  | succ m ih =>
    intro i acc hik hm
    by_cases heq : i = k
    · subst heq
      exact hkcase acc
    · have hik' : i < k := by omega
      cases hoi : oracle i with
      | none => exact absurd hoi (hprev i hik')
      | some t =>
        rw [runChunksFrom_ok oracle n i acc t (by omega) hoi]
        rw [ih (i + 1) (acc ++ (' ' :: t)) (by omega) (by omega)]
        have h1 : k + 1 - i = (k - i) + 1 := by omega
        have h2 : k + 1 - (i + 1) = k - i := by omega
        rw [h1, h2, List.range'_succ]

/-- Claim C6: if the remote call fails at chunk `k` (all earlier chunks having
succeeded), the loop of `transcribeLargeAudio` submits exactly chunks
`0 .. k` — each once (no retry), none after `k` — and returns an error
(`none`): no partial transcript of chunks `0 .. k-1` is returned. -/
theorem chunk_failure_aborts (oracle : ℕ → Option (List Char)) (n k : ℕ)
    (hk : k < n) (hfail : oracle k = none)
    (hprev : ∀ j, j < k → oracle j ≠ none) :
    runChunksFrom oracle n 0 [] = (List.range (k + 1), none) := by
  have h := runChunksFrom_fail_aux oracle n k hk hfail hprev k 0 [] (by omega) (by omega)
  rw [h, List.range_eq_range']
  norm_num

/-- Witness for `chunk_failure_aborts`: two chunks, the second one failing. -/
theorem chunk_failure_aborts_witness :
    (1 < 2) ∧ (failAfterFirst 1 = none) ∧ (∀ j, j < 1 → failAfterFirst j ≠ none) ∧
    runChunksFrom failAfterFirst 2 0 [] = (List.range (1 + 1), none) :=
  ⟨by decide, by decide, by decide,
   chunk_failure_aborts failAfterFirst 2 1 (by decide) (by decide) (by decide)⟩

end VoxScribe
